import Mathlib

/-!
Verification of the Output Comparator of CodeForcesRunner.

The comparator receives two text blobs (expected, actual), trims
surrounding whitespace from each (`bytes.TrimSpace`), and decides
equality; on inequality it renders a line diff.  Text blobs are modelled
as `List Char`; the per-byte / per-rune distinction is immaterial to the
properties proved here.  Fallible operations (Go slice expressions that
can panic) return `Option`; the reporting step of `compileAndRun`
returns an `Except` mirroring Go's `error` result.
-/

namespace CFRunner

/-- Whitespace predicate of Go's `unicode.IsSpace`, used by
`bytes.TrimSpace`: tab, LF, VT, FF, CR, space, NEL, NBSP and the
Unicode `White_Space` code points. -/
def goIsSpace (c : Char) : Bool :=
  let n := c.toNat
  n = 9 || n = 10 || n = 11 || n = 12 || n = 13 || n = 32 ||
  n = 0x85 || n = 0xA0 || n = 0x1680 ||
  (0x2000 ≤ n && n ≤ 0x200A) ||
  n = 0x2028 || n = 0x2029 || n = 0x202F || n = 0x205F || n = 0x3000

/-- Model of Go's `bytes.TrimSpace`: remove leading and trailing
whitespace of a whole blob (not per-line).  Trailing whitespace is
removed by dropping from the reversed list; then leading whitespace is
dropped. -/
def trimSpace (l : List Char) : List Char :=
  ((l.reverse.dropWhile goIsSpace).reverse).dropWhile goIsSpace

/-- Comparison verdict: the two possible outcomes of the comparator. -/
inductive Verdict where
  | Match : Verdict
  | Diff : Verdict
  deriving DecidableEq, Repr

/-- The equality decision of `compileAndRun`
(`bytes.Equal(bytes.TrimSpace(actual), bytes.TrimSpace(expected))`):
`Match` when the trimmed blobs are equal, `Diff` otherwise. -/
def compare (expected actual : List Char) : Verdict :=
  if trimSpace actual = trimSpace expected then Verdict.Match else Verdict.Diff

/-- Model of Go's `strings.Split(s, "\n")`: split on every newline,
keeping empty fragments, so `"a\nb\n"` yields `["a", "b", ""]` and the
empty blob yields `[""]`. -/
def splitLines : List Char → List (List Char)
  | [] => [[]]
  | c :: rest =>
    if c = '\n' then [] :: splitLines rest
    else
      match splitLines rest with
      | [] => [[c]]
      | l :: ls => (c :: l) :: ls

/-- Line lookup of `diffLines`: inside the loop a missing line on either
side (`i >= len(lines)`) is the empty string. -/
def lineAt (lines : List (List Char)) (i : Nat) : List Char :=
  lines.getD i []

/-- Row classification of `diffLines` (`e != a`): row `i` is differing
exactly when the expected line at `i` is not equal to the actual line
at `i`. -/
def differing (el al : List (List Char)) (i : Nat) : Bool :=
  lineAt el i != lineAt al i

/-- The differing row indices of the `diffLines` loop: indices
`0 .. max(len(expLines), len(actLines))` whose rows are differing. -/
def diffIndices (expected actual : List Char) : List Nat :=
  let el := splitLines expected
  let al := splitLines actual
  (List.range (Nat.max el.length al.length)).filter (differing el al)

/-- Body of the unified-style `diffLines` of `main.go`: for each index of
`0 .. max`, a differing row emits the expected line prefixed
`"- "` and the actual line prefixed `"+ "`; an equal row emits
nothing. -/
def unifiedDiffRows (expected actual : List Char) : List (List Char) :=
  let el := splitLines expected
  let al := splitLines actual
  (List.range (Nat.max el.length al.length)).flatMap (fun i =>
    if differing el al i then
      [['-', ' '] ++ lineAt el i, ['+', ' '] ++ lineAt al i]
    else [])

/-- Full output of the unified-style `diffLines` of `main.go`: the two
header lines followed by the emitted row pairs. -/
def diffLines (expected actual : List Char) : List (List Char) :=
  "--- expected_output".data :: "+++ actual_output".data ::
    unifiedDiffRows expected actual

/-- Model of the Go slice expression `s[:k]` with an `int` bound `k`:
panics (here `none`) unless `0 <= k <= len(s)`. -/
def goSliceTo (s : List Char) (k : Int) : Option (List Char) :=
  if 0 ≤ k ∧ k ≤ (s.length : Int) then some (s.take k.toNat) else none

/-- Model of `truncate` of the source: when `len(s) > max` it evaluates
`s[:max-3] + "..."` (which panics when `max - 3` is negative),
otherwise it returns `s` unchanged. -/
def truncate (s : List Char) (max : Int) : Option (List Char) :=
  if (s.length : Int) > max then
    (goSliceTo s (max - 3)).map (fun t => t ++ ['.', '.', '.'])
  else some s

/-- Comparison-and-report tail of `compileAndRun`: after both outputs
are read, the code either prints the match message or prints the
mismatch banner followed by the rendered diff; in both branches control
then reaches `return nil`, so the returned `error` is never set by a
mismatch.  The rendering style is a parameter since the repository has a
unified and a table renderer. -/
def compareAndReport (render : List Char → List Char → List (List Char))
    (expected actual : List Char) :
    List (List Char) × Except (List Char) Verdict :=
  if trimSpace actual = trimSpace expected then
    (["Output matches the expected output!".data], Except.ok Verdict.Match)
  else
    ("Output differs from expected:".data :: render expected actual,
      Except.ok Verdict.Diff)

/-! ### Helper lemmas about `dropWhile` and `trimSpace` -/

theorem dropWhile_self_idem (p : Char → Bool) (l : List Char) :
    (l.dropWhile p).dropWhile p = l.dropWhile p := by
  induction l with
  | nil => rfl
  | cons c rest ih =>
    by_cases h : p c
    · simp [List.dropWhile, h, ih]
    · simp [List.dropWhile, h]

theorem head_dropWhile_false (p : Char → Bool) (l : List Char) (c : Char)
    (h : (l.dropWhile p).head? = some c) : p c = false := by
  induction l with
  | nil => simp [List.dropWhile] at h
  | cons d rest ih =>
    by_cases hd : p d
    · exact ih (by simpa [List.dropWhile, hd] using h)
    · simp [List.dropWhile, hd] at h
      rw [← h]
      simpa using hd

theorem dropWhile_eq_self_of_head (p : Char → Bool) (l : List Char)
    (h : ∀ c, l.head? = some c → p c = false) : l.dropWhile p = l := by
  cases l with
  | nil => rfl
  | cons c rest => simp [List.dropWhile, h c rfl]

theorem dropWhile_suffix_ex (p : Char → Bool) (l : List Char) :
    ∃ t, l = t ++ l.dropWhile p := by
  induction l with
  | nil => exact ⟨[], rfl⟩
  | cons c rest ih =>
    by_cases h : p c
    · obtain ⟨t, ht⟩ := ih
      exact ⟨c :: t, by simp [List.dropWhile, h, ← ht]⟩
    · exact ⟨[], by simp [List.dropWhile, h]⟩

theorem trimSpace_idem (l : List Char) :
    trimSpace (trimSpace l) = trimSpace l := by
  unfold trimSpace
  set p := goIsSpace with hp
  set r := l.reverse.dropWhile p with hr
  set s := r.reverse.dropWhile p with hs
  have hstep : s.reverse.dropWhile p = s.reverse := by
    apply dropWhile_eq_self_of_head
    intro c hc
    obtain ⟨t, ht⟩ := dropWhile_suffix_ex p r.reverse
    rw [← hs] at ht
    cases hsrev : s.reverse with
    | nil => simp [hsrev] at hc
    | cons d ds =>
      have hsd : s = ds.reverse ++ [d] := by
        have := congrArg List.reverse hsrev
        simpa using this
      have hrform : r = d :: (ds ++ t.reverse) := by
        have := congrArg List.reverse ht
        simp [hsd] at this
        simpa using this
      have hdrop : (l.reverse.dropWhile p).head? = some d := by
        rw [← hr, hrform]; rfl
      have hpd := head_dropWhile_false p l.reverse d hdrop
      have hcd : c = d := by
        rw [hsrev] at hc
        simp at hc
        exact hc.symm
      rw [hcd]; exact hpd
  rw [hstep]
  simp only [List.reverse_reverse]
  rw [hs]
  exact dropWhile_self_idem p r.reverse

theorem dropWhile_newlines_append (k : Nat) (x : List Char) :
    (List.replicate k '\n' ++ x).dropWhile goIsSpace = x.dropWhile goIsSpace := by
  induction k with
  | zero => rfl
  | succ n ih =>
    have hnl : goIsSpace '\n' = true := by decide
    simp only [List.replicate, List.cons_append, List.dropWhile, hnl]
    exact ih

theorem trimSpace_append_newlines (core : List Char) (k : Nat) :
    trimSpace (core ++ List.replicate k '\n') = trimSpace core := by
  unfold trimSpace
  have h1 : (core ++ List.replicate k '\n').reverse =
      List.replicate k '\n' ++ core.reverse := by
    simp [List.reverse_append, List.reverse_replicate]
  rw [h1, dropWhile_newlines_append]

/-! ### Helper lemmas about `flatMap` over filtered ranges -/

theorem filter_flatMap_if {α β : Type} (l : List α) (p : α → Bool)
    (f : α → List β) :
    (l.filter p).flatMap f = l.flatMap (fun x => if p x then f x else []) := by
  induction l with
  | nil => rfl
  | cons c rest ih =>
    by_cases h : p c
    · simp [List.filter, h, ih]
    · simp [List.filter, h, ih]

theorem length_flatMap_pairs {α β : Type} (l : List α) (f : α → List β)
    (h : ∀ x, (f x).length = 2) : (l.flatMap f).length = 2 * l.length := by
  induction l with
  | nil => rfl
  | cons c rest ih =>
    simp [List.flatMap_cons, h, ih, Nat.mul_succ, Nat.mul_add]
    omega

/-! ### Claim theorems -/

/-- C1: the comparator yields Match if and only if the two blobs are
byte-wise equal after trimming leading and trailing whitespace from each
full blob (not per-line); any internal difference therefore yields a
mismatch. -/
theorem compare_match_iff_trim_eq (expected actual : List Char) :
    compare expected actual = Verdict.Match ↔
      trimSpace expected = trimSpace actual := by
  unfold compare
  by_cases h : trimSpace actual = trimSpace expected
  · simp [h, eq_comm]
  · simp [h]
    intro hc
    exact h hc.symm

/-- C2: pre-trimming both inputs never changes the verdict:
`compare a b = compare (trim a) (trim b)`. -/
theorem compare_trim_invariant (a b : List Char) :
    compare a b = compare (trimSpace a) (trimSpace b) := by
  unfold compare
  rw [trimSpace_idem, trimSpace_idem]

/-- C3: texts that differ only in trailing newlines compare as Match;
in particular `"5\n"` versus `"5"` is a Match. -/
theorem compare_trailing_newlines :
    (∀ (core : List Char) (k j : Nat),
      compare (core ++ List.replicate k '\n')
        (core ++ List.replicate j '\n') = Verdict.Match) ∧
    compare "5\n".data "5".data = Verdict.Match := by
  constructor
  · intro core k j
    unfold compare
    rw [trimSpace_append_newlines, trimSpace_append_newlines]
    simp
  · decide

/-- C7: comparing any text against itself yields Match. -/
theorem compare_refl (a : List Char) : compare a a = Verdict.Match := by
  unfold compare
  simp

/-- C4: the diff iterates indices `0 .. max` of the two line sequences
split on newline, treats a missing line as the empty string, and
classifies row `i` as differing exactly when the lines at `i` are
unequal; for `"1\n2\n3"` versus `"1\n9\n3"` exactly index 1 differs, and
for a 2-line expected versus a 4-line actual, indices 2 and 3 compare
`""` against actual's lines and differ unless the actual line is also
empty. -/
theorem diffIndices_spec :
    (∀ (expected actual : List Char) (i : Nat),
      i ∈ diffIndices expected actual ↔
        (i < Nat.max (splitLines expected).length (splitLines actual).length ∧
          lineAt (splitLines expected) i ≠ lineAt (splitLines actual) i)) ∧
    diffIndices "1\n2\n3".data "1\n9\n3".data = [1] ∧
    diffIndices "a\nb".data "a\nb\nc\n".data = [2] := by
  refine ⟨?_, by decide, by decide⟩
  intro e a i
  simp [diffIndices, differing, List.mem_filter, List.mem_range]

/-- C6: the unified diff style emits, for each differing row only, the
expected line prefixed by a dash and the actual line prefixed by a plus,
and nothing for equal rows, so the emitted body has exactly two lines
per differing index. -/
theorem diffLines_unified_spec (expected actual : List Char) :
    diffLines expected actual =
      "--- expected_output".data :: "+++ actual_output".data ::
        (diffIndices expected actual).flatMap (fun i =>
          [['-', ' '] ++ lineAt (splitLines expected) i,
            ['+', ' '] ++ lineAt (splitLines actual) i]) ∧
    (unifiedDiffRows expected actual).length =
      2 * (diffIndices expected actual).length := by
  have hrows : unifiedDiffRows expected actual =
      (diffIndices expected actual).flatMap (fun i =>
        [['-', ' '] ++ lineAt (splitLines expected) i,
          ['+', ' '] ++ lineAt (splitLines actual) i]) := by
    simp only [unifiedDiffRows, diffIndices]
    rw [filter_flatMap_if]
  constructor
  · unfold diffLines
    rw [hrows]
  · rw [hrows]
    exact length_flatMap_pairs _ _ (fun x => rfl)

/-- C8: a mismatch is non-fatal: whatever renderer is used, the
comparison-and-report step returns `ok` with the verdict, never an
error, so only Match versus Diff is signaled. -/
theorem compareAndReport_no_error
    (render : List Char → List Char → List (List Char))
    (expected actual : List Char) :
    (compareAndReport render expected actual).2 =
      Except.ok (compare expected actual) := by
  unfold compareAndReport compare
  by_cases h : trimSpace actual = trimSpace expected <;> simp [h]

/-- C5 counterexample: at width 2 with a 4-character line, `truncate`
panics (`none`) instead of producing output of total length 2, so the
claim fails for widths below 3. -/
theorem truncate_narrow_cex :
    truncate (List.replicate 4 'x') 2 = none ∧
    (truncate (List.replicate 4 'x') 2).map List.length ≠ some 2 := by
  decide

/-- C5 (amended to widths of at least 3): when `len s > w` and `w ≥ 3`,
`truncate` returns the first `w - 3` characters followed by the
3-character ellipsis, with total length exactly `w`. -/
theorem truncate_long (s : List Char) (w : Int) (h3 : 3 ≤ w)
    (hlen : (s.length : Int) > w) :
    truncate s w = some (s.take (w - 3).toNat ++ ['.', '.', '.']) ∧
    ((s.take (w - 3).toNat ++ ['.', '.', '.']).length : Int) = w := by
  have h0 : (0 : Int) ≤ w - 3 := by omega
  have hle : w - 3 ≤ (s.length : Int) := by omega
  have htoNat : (w - 3).toNat ≤ s.length := Int.toNat_le.mpr hle
  constructor
  · unfold truncate goSliceTo
    rw [if_pos hlen, if_pos ⟨h0, hle⟩]
    rfl
  · have htake : (s.take (w - 3).toNat).length = (w - 3).toNat := by
      rw [List.length_take]
      exact Nat.min_eq_left htoNat
    simp only [List.length_append, htake, List.length_cons, List.length_nil]
    push_cast
    rw [Int.toNat_of_nonneg h0]
    ring

/-- C5 witness: a line of 50 x characters truncated to width 10 is the
first 7 characters plus the ellipsis, of total length 10. -/
theorem truncate_long_witness :
    truncate (List.replicate 50 'x') 10 =
      some ((List.replicate 50 'x').take ((10 : Int) - 3).toNat ++
        ['.', '.', '.']) ∧
    (((List.replicate 50 'x').take ((10 : Int) - 3).toNat ++
      ['.', '.', '.']).length : Int) = 10 :=
  truncate_long (List.replicate 50 'x') 10 (by decide) (by decide)

/-- C9: for widths below 3 and a line longer than the width, the slice
bound `max - 3` is negative, so `truncate` panics (`none`): the function
is not total for narrow widths. -/
theorem truncate_narrow_panics (s : List Char) (w : Int) (hw : w < 3)
    (hlen : (s.length : Int) > w) : truncate s w = none := by
  unfold truncate goSliceTo
  rw [if_pos hlen, if_neg]
  · rfl
  · rintro ⟨h1, _⟩
    omega

/-- C9 witness: truncating a 1-character line to width 0 panics. -/
theorem truncate_narrow_panics_witness : truncate ['x'] 0 = none :=
  truncate_narrow_panics ['x'] 0 (by decide) (by decide)

/-- C10: when the line fits (`len s ≤ max`), `truncate` returns it
unchanged and never panics, even for widths below 3. -/
theorem truncate_fits (s : List Char) (w : Int)
    (h : (s.length : Int) ≤ w) : truncate s w = some s := by
  unfold truncate
  rw [if_neg (by omega)]

/-- C10 witness: the empty line at width 0 is returned unchanged. -/
theorem truncate_fits_witness : truncate [] 0 = some [] :=
  truncate_fits [] 0 (by decide)

end CFRunner
